import Mathlib

/-!
Verification of palette_swap.py: a shallow embedding of the palette-extraction
and color-substitution pipeline (get_im_data, get_color_map, make_palette,
load_palette_file, swap_colors) together with proofs about it.

Modelling conventions:
* A PIL pixel color is a Python tuple of channel values.  Python tuples are
  untyped and of arbitrary arity, so a color is a `List Int`.
* A PIL image is a rectangular pixel grid with an explicit size;
  `image.getdata()` is the row-major flattening (top-to-bottom rows, each
  left-to-right), and `image.load()[x, y]` indexes column `x` of row `y`.
* Python code that can raise (KeyError on a dict lookup, ValueError in
  `int()`, ZeroDivisionError) is modelled with `Option`: `none` is the raise,
  and a raise inside a loop discards the partially written buffer, exactly as
  an uncaught Python exception does.
* The Python dict built by get_color_map is only ever consumed through
  `color_map[c]` lookups and key membership, so it is modelled by its lookup
  function `Color → Option Color`; assignment is pointwise update, with a
  later assignment to the same key overwriting the earlier one.
* Diagnostic `print` calls are side effects invisible to every claim and are
  dropped.
-/

/-- A pixel color as PIL hands it out: a Python tuple of integer channel
values (R, G, B, A for the RGBA images this program works with).  Python
tuples are untyped and of arbitrary length, so the model is a list. -/
abbrev Color := List Int

/-- A PIL image: explicit width and height plus the pixel grid, one list per
row (top to bottom), each row running left to right. -/
structure PixelBuffer where
  width : Nat
  height : Nat
  rows : List (List Color)
  deriving DecidableEq

/-- Well-formedness of a buffer: the grid matches the declared size and is
rectangular (PIL guarantees this for real images). -/
def PixelBuffer.wf (b : PixelBuffer) : Prop :=
  b.rows.length = b.height ∧ ∀ r ∈ b.rows, r.length = b.width

/-- Pixel access `image.load()[x, y]`. -/
def PixelBuffer.getpixel (b : PixelBuffer) (x y : Nat) : Color :=
  (b.rows.getD y []).getD x []

/-- The sequence `image.getdata()`: all pixels in row-major order
(top-to-bottom, each row left-to-right). -/
def PixelBuffer.getdata (b : PixelBuffer) : List Color :=
  b.rows.flatten

/-- Run an `Option`-valued function over a list, failing as soon as any
element fails: the shape of a Python `for` loop whose body may raise. -/
def mapOpt {α β : Type} (f : α → Option β) : List α → Option (List β)
  | [] => some []
  | a :: l => (f a).bind fun b => (mapOpt f l).map fun r => b :: r

theorem mapOpt_eq_none_iff {α β : Type} (f : α → Option β) (l : List α) :
    mapOpt f l = none ↔ ∃ a ∈ l, f a = none := by
  induction l with
  | nil => simp [mapOpt]
  | cons a l ih =>
    cases h : f a with
    | none => simp [mapOpt, h]
    | some b => simp [mapOpt, h, Option.map_eq_none', ih]

theorem mapOpt_eq_none_of_mem {α β : Type} {f : α → Option β} {l : List α}
    {a : α} (ha : a ∈ l) (hf : f a = none) : mapOpt f l = none :=
  (mapOpt_eq_none_iff f l).mpr ⟨a, ha, hf⟩

theorem mapOpt_length {α β : Type} {f : α → Option β} :
    ∀ {l : List α} {r : List β}, mapOpt f l = some r → r.length = l.length := by
  intro l
  induction l with
  | nil => intro r h; simp [mapOpt] at h; simp [← h]
  | cons a l ih =>
    intro r h
    cases ha : f a with
    | none => simp [mapOpt, ha] at h
    | some b =>
      cases hl : mapOpt f l with
      | none => simp [mapOpt, ha, hl] at h
      | some r' =>
        simp [mapOpt, ha, hl] at h
        simp [← h, ih hl]

theorem mapOpt_getD {α β : Type} {f : α → Option β} (da : α) (db : β) :
    ∀ {l : List α} {r : List β}, mapOpt f l = some r →
      ∀ i, i < l.length → f (l.getD i da) = some (r.getD i db) := by
  intro l
  induction l with
  | nil => intro r _ i hi; simp at hi
  | cons a l ih =>
    intro r h i hi
    cases ha : f a with
    | none => simp [mapOpt, ha] at h
    | some b =>
      cases hl : mapOpt f l with
      | none => simp [mapOpt, ha, hl] at h
      | some r' =>
        simp [mapOpt, ha, hl] at h
        cases i with
        | zero => simp [← h, ha]
        | succ i =>
          simp at hi
          simpa [← h] using ih hl i hi

theorem mapOpt_eq_some_of_forall {α β : Type} {f : α → Option β} {g : α → β} :
    ∀ {l : List α}, (∀ a ∈ l, f a = some (g a)) → mapOpt f l = some (l.map g) := by
  intro l
  induction l with
  | nil => intro _; simp [mapOpt]
  | cons a l ih =>
    intro h
    have ha : f a = some (g a) := h a (by simp)
    have hl : mapOpt f l = some (l.map g) := ih fun x hx => h x (by simp [hx])
    simp [mapOpt, ha, hl]

/-- Body of the loop in get_im_data: record a color unless it was already
seen (`if color not in colors_present: colors_present.append(color)`). -/
def addColor (colors_present : List Color) (color : Color) : List Color :=
  if color ∈ colors_present then colors_present else colors_present ++ [color]

/-- get_im_data (palette_swap.py, lines 13-26): scan `image.getdata()` and
return the distinct colors in first-occurrence order. -/
def get_im_data (image : PixelBuffer) : List Color :=
  image.getdata.foldl addColor []

theorem foldl_addColor_nodup :
    ∀ (l acc : List Color), acc.Nodup → (l.foldl addColor acc).Nodup := by
  intro l
  induction l with
  | nil => intro acc h; simpa using h
  | cons c l ih =>
    intro acc h
    by_cases hc : c ∈ acc
    · simpa [addColor, hc] using ih acc h
    · have hnd : (acc ++ [c]).Nodup := by simp [List.nodup_append, h, hc]
      simpa [addColor, hc] using ih (acc ++ [c]) hnd

theorem foldl_addColor_length :
    ∀ (l acc : List Color), (l.foldl addColor acc).length ≤ acc.length + l.length := by
  intro l
  induction l with
  | nil => intro acc; simp
  | cons c l ih =>
    intro acc
    have hlen : (addColor acc c).length ≤ acc.length + 1 := by
      by_cases hc : c ∈ acc <;> simp [addColor, hc]
    calc (List.foldl addColor (addColor acc c) l).length
        ≤ (addColor acc c).length + l.length := ih _
      _ ≤ acc.length + (c :: l).length := by simp; omega

theorem foldl_addColor_mem :
    ∀ (l acc : List Color) (c : Color),
      c ∈ l.foldl addColor acc ↔ c ∈ acc ∨ c ∈ l := by
  intro l
  induction l with
  | nil => intro acc c; simp
  | cons a l ih =>
    intro acc c
    by_cases ha : a ∈ acc
    · rw [List.foldl_cons]
      rw [show addColor acc a = acc from if_pos ha, ih]
      constructor
      · rintro (h | h)
        · exact Or.inl h
        · exact Or.inr (by simp [h])
      · rintro (h | h)
        · exact Or.inl h
        · rcases List.mem_cons.mp h with h | h
          · exact Or.inl (h ▸ ha)
          · exact Or.inr h
    · rw [List.foldl_cons]
      rw [show addColor acc a = acc ++ [a] from if_neg ha, ih]
      simp [or_assoc, or_comm (a := c = a)]

theorem foldl_addColor_closed :
    ∀ (l acc : List Color), (∀ c ∈ l, c ∈ acc) → l.foldl addColor acc = acc := by
  intro l
  induction l with
  | nil => intro acc _; rfl
  | cons a l ih =>
    intro acc h
    have ha : a ∈ acc := h a (by simp)
    rw [List.foldl_cons, show addColor acc a = acc from if_pos ha]
    exact ih acc fun c hc => h c (by simp [hc])

/-- Index of the first occurrence of a color in a list (the length of the
list when absent): the yardstick for first-occurrence order. -/
def firstIdx (c : Color) : List Color → Nat
  | [] => 0
  | d :: l => if c = d then 0 else firstIdx c l + 1

theorem firstIdx_append_of_mem :
    ∀ {l₁ : List Color} (l₂ : List Color) {c : Color}, c ∈ l₁ →
      firstIdx c (l₁ ++ l₂) < l₁.length := by
  intro l₁
  induction l₁ with
  | nil => intro l₂ c hc; simp at hc
  | cons d l ih =>
    intro l₂ c hc
    by_cases hd : c = d
    · simp [firstIdx, hd]
    · rcases List.mem_cons.mp hc with h | h
      · exact absurd h hd
      · simpa [firstIdx, hd] using ih l₂ h

theorem firstIdx_append_of_not_mem :
    ∀ {l₁ : List Color} (l₂ : List Color) {c : Color}, c ∉ l₁ →
      firstIdx c (l₁ ++ l₂) = l₁.length + firstIdx c l₂ := by
  intro l₁
  induction l₁ with
  | nil => intro l₂ c _; simp
  | cons d l ih =>
    intro l₂ c hc
    have hd : ¬ c = d := fun h => hc (by simp [h])
    have hl : c ∉ l := fun h => hc (by simp [h])
    simp [firstIdx, hd, ih l₂ hl]
    omega

theorem foldl_addColor_pairwise (L : List Color) :
    ∀ (suf acc pre : List Color), pre ++ suf = L →
      (∀ a, a ∈ acc ↔ a ∈ pre) →
      acc.Pairwise (fun a b => firstIdx a L < firstIdx b L) →
      (suf.foldl addColor acc).Pairwise (fun a b => firstIdx a L < firstIdx b L) := by
  intro suf
  induction suf with
  | nil => intro acc pre _ _ hp; simpa using hp
  | cons c suf ih =>
    intro acc pre hL hmem hp
    rw [List.foldl_cons]
    have hL' : (pre ++ [c]) ++ suf = L := by simpa using hL
    by_cases hc : c ∈ acc
    · rw [show addColor acc c = acc from if_pos hc]
      refine ih acc (pre ++ [c]) hL' ?_ hp
      intro a
      rw [hmem a]
      constructor
      · intro h; simp [h]
      · intro h
        rcases List.mem_append.mp h with h | h
        · exact h
        · have : a = c := by simpa using h
          exact this ▸ (hmem c).mp hc
    · rw [show addColor acc c = acc ++ [c] from if_neg hc]
      have hcpre : c ∉ pre := fun h => hc ((hmem c).mpr h)
      refine ih (acc ++ [c]) (pre ++ [c]) hL' ?_ ?_
      · intro a; simp [hmem a]
      · rw [List.pairwise_append]
        refine ⟨hp, by simp, ?_⟩
        intro a ha b hb
        have hb' : b = c := by simpa using hb
        subst hb'
        have hapre : a ∈ pre := (hmem a).mp ha
        have h1 : firstIdx a L < pre.length := by
          rw [← hL]; exact firstIdx_append_of_mem _ hapre
        have h2 : firstIdx b L = pre.length := by
          rw [← hL, firstIdx_append_of_not_mem _ hcpre]
          simp [firstIdx]
        omega

/-- The Python dict of get_color_map, seen through its only uses (lookups and
key membership): the lookup function.  `none` is a missing key (KeyError on
subscript access). -/
abbrev ColorMap := Color → Option Color

/-- The empty dict `{}`. -/
def cmEmpty : ColorMap := fun _ => none

/-- Dict assignment `color_map[k] = v`: a later assignment to the same key
overwrites the earlier one. -/
def cmInsert (color_map : ColorMap) (k v : Color) : ColorMap :=
  fun q => if q = k then some v else color_map q

/-- One iteration of the loop in get_color_map (palette_swap.py, lines
96-105): Python evaluates `i > len(new_colors) - 1` over ℤ, so the
comparison is taken in `Int`. -/
def gcmStep (old_colors new_colors : List Color) (color_map : ColorMap) (i : Nat) : ColorMap :=
  if (i : Int) > (new_colors.length : Int) - 1 then
    cmInsert color_map (old_colors.getD i []) (old_colors.getD i [])
  else
    cmInsert color_map (old_colors.getD i []) (new_colors.getD i [])

/-- get_color_map (palette_swap.py, lines 84-107): positional pairing of the
two palettes with identity fallback past the end of new_colors
(`for i in range(0, max_colors)` with `max_colors = len(old_colors)`). -/
def get_color_map (old_colors new_colors : List Color) : ColorMap :=
  (List.range old_colors.length).foldl (gcmStep old_colors new_colors) cmEmpty

/-- The destination color the i-th loop iteration pairs with old_colors[i]:
new_colors[i] inside the common range, old_colors[i] (identity) past it. -/
def pairVal (old_colors new_colors : List Color) (i : Nat) : Color :=
  if (i : Int) > (new_colors.length : Int) - 1 then old_colors.getD i []
  else new_colors.getD i []

theorem gcmStep_eq (old_colors new_colors : List Color) (m : ColorMap) (i : Nat) :
    gcmStep old_colors new_colors m i
      = cmInsert m (old_colors.getD i []) (pairVal old_colors new_colors i) := by
  by_cases h : (i : Int) > (new_colors.length : Int) - 1 <;>
    simp [gcmStep, pairVal, h]

theorem gcm_aux_isSome (old_colors new_colors : List Color) :
    ∀ (n : Nat) (k : Color),
      (((List.range n).foldl (gcmStep old_colors new_colors) cmEmpty) k).isSome
        ↔ ∃ i, i < n ∧ old_colors.getD i [] = k := by
  intro n
  induction n with
  | zero => intro k; simp [cmEmpty]
  | succ n ih =>
    intro k
    rw [List.range_succ, List.foldl_append, List.foldl_cons, List.foldl_nil,
      gcmStep_eq, cmInsert]
    by_cases hk : k = old_colors.getD n []
    · rw [if_pos hk]
      simp only [Option.isSome_some, true_iff]
      exact ⟨n, Nat.lt_succ_self n, hk.symm⟩
    · rw [if_neg hk, ih]
      constructor
      · rintro ⟨i, hi, he⟩; exact ⟨i, Nat.lt_succ_of_lt hi, he⟩
      · rintro ⟨i, hi, he⟩
        rcases Nat.lt_succ_iff_lt_or_eq.mp hi with hi | hi
        · exact ⟨i, hi, he⟩
        · exact absurd (hi ▸ he).symm hk

theorem gcm_aux_last (old_colors new_colors : List Color) :
    ∀ (n i : Nat) (k : Color), i < n → old_colors.getD i [] = k →
      (∀ j, i < j → j < n → old_colors.getD j [] ≠ k) →
      ((List.range n).foldl (gcmStep old_colors new_colors) cmEmpty) k
        = some (pairVal old_colors new_colors i) := by
  intro n
  induction n with
  | zero => intro i k hi; omega
  | succ n ih =>
    intro i k hi hk hlast
    rw [List.range_succ, List.foldl_append, List.foldl_cons, List.foldl_nil,
      gcmStep_eq, cmInsert]
    rcases Nat.lt_succ_iff_lt_or_eq.mp hi with hi' | hi'
    · have hn : old_colors.getD n [] ≠ k := hlast n hi' (Nat.lt_succ_self n)
      rw [if_neg fun h => hn h.symm]
      exact ih i k hi' hk fun j h1 h2 => hlast j h1 (Nat.lt_succ_of_lt h2)
    · subst hi'
      rw [hk, if_pos rfl]

theorem lastOcc_of_mem {α : Type} (d : α) :
    ∀ {l : List α} {a : α}, a ∈ l →
      ∃ i, i < l.length ∧ l.getD i d = a ∧
        ∀ j, i < j → j < l.length → l.getD j d ≠ a := by
  intro l
  induction l using List.reverseRecOn with
  | nil => intro a ha; simp at ha
  | append_singleton l b ih =>
    intro a ha
    by_cases hb : b = a
    · refine ⟨l.length, by simp, ?_, ?_⟩
      · rw [List.getD_append_right l [b] d l.length (le_refl _)]
        simpa using hb
      · intro j h1 h2; simp at h2; omega
    · have ha' : a ∈ l := by
        rcases List.mem_append.mp ha with h | h
        · exact h
        · have hab : a = b := by simpa using h
          exact absurd hab.symm hb
      obtain ⟨i, hi, he, hlast⟩ := ih ha'
      refine ⟨i, ?_, ?_, ?_⟩
      · simp only [List.length_append, List.length_singleton]; omega
      · rw [List.getD_append l [b] d i hi]; exact he
      · intro j h1 h2
        simp at h2
        rcases Nat.lt_or_ge j l.length with hj | hj
        · rw [List.getD_append l [b] d j hj]; exact hlast j h1 hj
        · have : j = l.length := by omega
          subst this
          rw [List.getD_append_right l [b] d l.length (le_refl _)]
          simpa using hb

theorem getD_mem_of_lt {α : Type} (d : α) :
    ∀ {l : List α} {i : Nat}, i < l.length → l.getD i d ∈ l := by
  intro l i hi
  rw [List.getD_eq_getElem l d hi]
  exact List.getElem_mem hi

theorem exists_getD_of_mem {α : Type} (d : α) {l : List α} {a : α} (ha : a ∈ l) :
    ∃ i, i < l.length ∧ l.getD i d = a := by
  obtain ⟨i, hi, he, _⟩ := lastOcc_of_mem d ha
  exact ⟨i, hi, he⟩

theorem gcm_isSome_iff (old_colors new_colors : List Color) (k : Color) :
    ((get_color_map old_colors new_colors) k).isSome ↔ k ∈ old_colors := by
  rw [get_color_map, gcm_aux_isSome]
  constructor
  · rintro ⟨i, hi, he⟩; exact he ▸ getD_mem_of_lt [] hi
  · intro hk
    obtain ⟨i, hi, he⟩ := exists_getD_of_mem [] hk
    exact ⟨i, hi, he⟩

theorem gcm_eq_none_iff (old_colors new_colors : List Color) (k : Color) :
    get_color_map old_colors new_colors k = none ↔ k ∉ old_colors := by
  rw [← gcm_isSome_iff old_colors new_colors k, Option.not_isSome_iff_eq_none]

theorem gcm_lookup_last (old_colors new_colors : List Color) {i : Nat}
    (hi : i < old_colors.length)
    (hlast : ∀ j, i < j → j < old_colors.length →
      old_colors.getD j [] ≠ old_colors.getD i []) :
    get_color_map old_colors new_colors (old_colors.getD i [])
      = some (pairVal old_colors new_colors i) :=
  gcm_aux_last old_colors new_colors old_colors.length i _ hi rfl hlast

theorem gcm_self_lookup (old_colors : List Color) {k : Color} (hk : k ∈ old_colors) :
    get_color_map old_colors old_colors k = some k := by
  obtain ⟨i, hi, he, hlast⟩ := lastOcc_of_mem ([] : Color) hk
  have hv := gcm_lookup_last old_colors old_colors hi (by rw [he]; exact hlast)
  rw [he] at hv
  have hp : pairVal old_colors old_colors i = k := by
    rw [pairVal]; split <;> exact he
  rw [hv, hp]

/-- The hard-coded size of every generated palette image
(`palette_size = [300, 200]`, width then height). -/
def palette_size : Nat × Nat := (300, 200)

/-- The fill of `Image.new(mode, size)` when no color is given: every channel
zero. -/
def imageNewBG : Color := [0, 0, 0, 0]

/-- ImageDraw.rectangle((x0, y0, x1, y1), fill=color, outline=None): paints
every pixel of the inclusive box, leaving the rest of the image unchanged.
The image is represented by its pixel function while being drawn on. -/
def drawRect (f : Nat → Nat → Color) (x0 y0 x1 y1 : Nat) (color : Color) :
    Nat → Nat → Color :=
  fun x y => if x0 ≤ x ∧ x ≤ x1 ∧ y0 ≤ y ∧ y ≤ y1 then color else f x y

/-- The strip-drawing loop of make_palette (palette_swap.py, lines 50-59):
one rectangle of width col_width per color, advancing right_shift by one
each iteration. -/
def paintStrips (col_width : Nat) :
    List Color → (Nat → Nat → Color) → Nat → (Nat → Nat → Color)
  | [], draw, _ => draw
  | color :: rest, draw, right_shift =>
    paintStrips col_width rest
      (drawRect draw (col_width * right_shift) 0 (col_width * (right_shift + 1))
        palette_size.2 color)
      (right_shift + 1)

/-- Realize a pixel function as the rows of a palette-sized image. -/
def renderRows (painted : Nat → Nat → Color) : List (List Color) :=
  (List.range palette_size.2).map fun y =>
    (List.range palette_size.1).map fun x => painted x y

/-- make_palette (palette_swap.py, lines 28-62) on the path exercised by
swap_colors: base image given, color_list=None (so it is computed by
get_im_data), disp_text=None (so no text is drawn).  Python evaluates
`col_width = floor(palette_size[0] / num_cols)`, which raises
ZeroDivisionError when the color list is empty; that raise is the `none`
branch.  On ≥ 1 colors, floor of the true-division equals Nat division. -/
def make_palette (base : PixelBuffer) : Option PixelBuffer :=
  let color_list := get_im_data base
  let num_cols := color_list.length
  if num_cols = 0 then none
  else
    let col_width := palette_size.1 / num_cols
    let painted := paintStrips col_width color_list (fun _ _ => imageNewBG) 0
    some { width := palette_size.1, height := palette_size.2,
           rows := renderRows painted }

/-- The per-pixel transformation loop of swap_colors (palette_swap.py, lines
120-132): a fresh buffer of the original's size, each cell written exactly
once with `color_map[old_data[x, y]]`.  Python iterates x outer and y inner;
since every cell is written exactly once from the co-located input cell, and
an uncaught KeyError discards the buffer, the result (`some` full buffer or
`none`) is iteration-order independent and is built here row by row.  The
initial fully-transparent fill (255, 255, 255, 0) is overwritten everywhere
on success and unobservable on failure. -/
def apply_mapping (color_map : ColorMap) (original : PixelBuffer) : Option PixelBuffer :=
  (mapOpt (fun y => mapOpt (fun x => color_map (original.getpixel x y))
      (List.range original.width))
    (List.range original.height)).map
    fun rows => { width := original.width, height := original.height, rows := rows }

/-- swap_colors (palette_swap.py, lines 109-132): render the original's
palette strip image, extract old_colors from that strip and new_colors from
the supplied palette image, build the color map, then transform the
original pixel by pixel. -/
def swap_colors (original : PixelBuffer) (palette : PixelBuffer) : Option PixelBuffer :=
  match make_palette original with
  | none => none
  | some old_pal =>
    let old_colors := get_im_data old_pal
    let new_colors := get_im_data palette
    let color_map := get_color_map old_colors new_colors
    apply_mapping color_map original

/-- Python str.split(',') on a line's characters: maximal runs between
commas, so an empty line gives one empty token and a trailing comma gives a
trailing empty token, exactly as in Python. -/
def splitCommas : List Char → List (List Char)
  | [] => [[]]
  | c :: rest =>
    if c = ',' then [] :: splitCommas rest
    else
      match splitCommas rest with
      | [] => [[c]]
      | tok :: toks => (c :: tok) :: toks

/-- One decimal digit of Python int() parsing. -/
def digitVal (c : Char) : Option Nat :=
  if '0' ≤ c ∧ c ≤ '9' then some (c.toNat - '0'.toNat) else none

/-- An unsigned decimal numeral: at least one digit, nothing else. -/
def parseNatDigits (cs : List Char) : Option Nat :=
  match cs with
  | [] => none
  | _ =>
    cs.foldl
      (fun acc c => acc.bind fun n => (digitVal c).map fun dig => n * 10 + dig)
      (some 0)

/-- Python `int(val)` on one comma-separated token: an optional sign followed
by decimal digits; `none` is the ValueError raised on anything else.
(Python's int additionally strips surrounding whitespace, which is how the
trailing newline of each file line is absorbed; tokens are taken here with
that whitespace already stripped, which loses no generality for the
validation claims.) -/
def pyInt (val : List Char) : Option Int :=
  match val with
  | '-' :: rest => (parseNatDigits rest).map fun n => -(n : Int)
  | '+' :: rest => (parseNatDigits rest).map fun n => (n : Int)
  | _ => (parseNatDigits val).map fun n => (n : Int)

/-- The parsing loop of load_palette_file (palette_swap.py, lines 68-80):
split each line on commas, convert every token with int(), and collect each
line's numbers as one color tuple.  No arity or range check is performed.
The subsequent `make_palette(None, color_list=colors, disp_text=...)` call
only renders the strip image for display and is the excluded presentation
layer; this function returns the colors list that is handed on to it. -/
def load_palette_file (lines : List String) : Option (List Color) :=
  mapOpt (fun entry => mapOpt pyInt (splitCommas entry.data)) lines

theorem wf_getpixel_mem {b : PixelBuffer} (h : b.wf) {c : Color} :
    c ∈ b.getdata ↔ ∃ x, x < b.width ∧ ∃ y, y < b.height ∧ b.getpixel x y = c := by
  rw [PixelBuffer.getdata, List.mem_flatten]
  constructor
  · rintro ⟨row, hrow, hc⟩
    obtain ⟨y, hy, hey⟩ := List.mem_iff_getElem.mp hrow
    obtain ⟨x, hx, hex⟩ := List.mem_iff_getElem.mp hc
    have hrw : row.length = b.width := h.2 row hrow
    refine ⟨x, hrw ▸ hx, y, h.1 ▸ hy, ?_⟩
    rw [PixelBuffer.getpixel, List.getD_eq_getElem b.rows [] hy, hey,
      List.getD_eq_getElem row [] hx, hex]
  · rintro ⟨x, hx, y, hy, hpix⟩
    have hy' : y < b.rows.length := h.1 ▸ hy
    refine ⟨b.rows.getD y [], getD_mem_of_lt [] hy', ?_⟩
    have hrw : (b.rows.getD y []).length = b.width :=
      h.2 _ (getD_mem_of_lt [] hy')
    have hx' : x < (b.rows.getD y []).length := hrw ▸ hx
    rw [← hpix, PixelBuffer.getpixel]
    exact getD_mem_of_lt [] hx'

theorem wf_getdata_length {b : PixelBuffer} (h : b.wf) :
    b.getdata.length = b.width * b.height := by
  rw [PixelBuffer.getdata, List.length_flatten]
  have hmap : b.rows.map List.length = List.replicate b.rows.length b.width := by
    rw [show b.rows.length = (b.rows.map List.length).length by simp]
    apply List.eq_replicate_of_mem
    intro a ha
    obtain ⟨row, hrow, he⟩ := List.mem_map.mp ha
    exact he ▸ h.2 row hrow
  rw [hmap, List.sum_replicate, smul_eq_mul, h.1, Nat.mul_comm]

theorem map_range_getD {α : Type} (l : List α) (d : α) {n : Nat} (h : l.length = n) :
    (List.range n).map (fun i => l.getD i d) = l := by
  apply List.ext_getElem
  · simp [h]
  · intro i h1 h2
    have hi : i < n := by simpa using h1
    simp only [List.getElem_map, List.getElem_range]
    exact List.getD_eq_getElem l d h2

theorem apply_mapping_eq_none_iff (color_map : ColorMap) {buf : PixelBuffer}
    (hwf : buf.wf) :
    apply_mapping color_map buf = none ↔ ∃ c ∈ buf.getdata, color_map c = none := by
  rw [apply_mapping, Option.map_eq_none', mapOpt_eq_none_iff]
  constructor
  · rintro ⟨y, hy, hinner⟩
    rw [mapOpt_eq_none_iff] at hinner
    obtain ⟨x, hx, hm⟩ := hinner
    refine ⟨buf.getpixel x y, ?_, hm⟩
    exact (wf_getpixel_mem hwf).mpr
      ⟨x, List.mem_range.mp hx, y, List.mem_range.mp hy, rfl⟩
  · rintro ⟨c, hc, hm⟩
    obtain ⟨x, hx, y, hy, hpix⟩ := (wf_getpixel_mem hwf).mp hc
    refine ⟨y, List.mem_range.mpr hy, ?_⟩
    rw [mapOpt_eq_none_iff]
    exact ⟨x, List.mem_range.mpr hx, hpix ▸ hm⟩

theorem apply_mapping_some_spec {color_map : ColorMap} {buf out : PixelBuffer}
    (h : apply_mapping color_map buf = some out) :
    out.width = buf.width ∧ out.height = buf.height ∧ out.wf ∧
      ∀ x y, x < buf.width → y < buf.height →
        color_map (buf.getpixel x y) = some (out.getpixel x y) := by
  rw [apply_mapping, Option.map_eq_some'] at h
  obtain ⟨rows0, houter, hout⟩ := h
  have hrl : rows0.length = buf.height := by
    simpa using mapOpt_length houter
  have hinner : ∀ y, y < buf.height →
      mapOpt (fun x => color_map (buf.getpixel x y)) (List.range buf.width)
        = some (rows0.getD y []) := by
    intro y hy
    have hylen : y < (List.range buf.height).length := by simpa using hy
    have hval := mapOpt_getD 0 ([] : List Color) houter y hylen
    rwa [List.getD_eq_getElem _ 0 hylen, List.getElem_range] at hval
  have hrowlen : ∀ y, y < buf.height → (rows0.getD y []).length = buf.width := by
    intro y hy
    simpa using mapOpt_length (hinner y hy)
  refine ⟨by rw [← hout], by rw [← hout], ?_, ?_⟩
  · refine ⟨by rw [← hout]; exact hrl, ?_⟩
    intro r hr
    rw [← hout] at hr ⊢
    obtain ⟨y, hy, hey⟩ := List.mem_iff_getElem.mp hr
    have hy' : y < buf.height := hrl ▸ hy
    have := hrowlen y hy'
    rwa [List.getD_eq_getElem _ [] hy, hey] at this
  · intro x y hx hy
    have hrow := hinner y hy
    have hxlen : x < (List.range buf.width).length := by simpa using hx
    have hval := mapOpt_getD 0 ([] : Color) hrow x hxlen
    rw [List.getD_eq_getElem _ 0 hxlen, List.getElem_range] at hval
    rw [hval, ← hout]
    rfl

theorem apply_mapping_total_some (color_map : ColorMap) {buf : PixelBuffer}
    (hwf : buf.wf) (h : ∀ c ∈ buf.getdata, (color_map c).isSome) :
    ∃ out, apply_mapping color_map buf = some out := by
  have hne : apply_mapping color_map buf ≠ none := by
    rw [Ne, apply_mapping_eq_none_iff color_map hwf]
    rintro ⟨c, hc, hm⟩
    have := h c hc
    rw [hm] at this
    exact Bool.noConfusion this
  exact Option.ne_none_iff_exists'.mp hne

theorem apply_mapping_self {buf : PixelBuffer} (hwf : buf.wf) :
    apply_mapping (get_color_map (get_im_data buf) (get_im_data buf)) buf
      = some buf := by
  rw [apply_mapping]
  have houter : mapOpt
      (fun y => mapOpt
        (fun x => get_color_map (get_im_data buf) (get_im_data buf)
          (buf.getpixel x y)) (List.range buf.width))
      (List.range buf.height) = some buf.rows := by
    have hmap := mapOpt_eq_some_of_forall
      (f := fun y => mapOpt
        (fun x => get_color_map (get_im_data buf) (get_im_data buf)
          (buf.getpixel x y)) (List.range buf.width))
      (g := fun y => buf.rows.getD y []) (l := List.range buf.height) ?_
    · rwa [map_range_getD buf.rows [] hwf.1] at hmap
    · intro y hy
      have hy' : y < buf.rows.length := hwf.1 ▸ List.mem_range.mp hy
      have hrw : (buf.rows.getD y []).length = buf.width :=
        hwf.2 _ (getD_mem_of_lt [] hy')
      have hmap2 := mapOpt_eq_some_of_forall
        (f := fun x => get_color_map (get_im_data buf) (get_im_data buf)
          (buf.getpixel x y))
        (g := fun x => (buf.rows.getD y []).getD x []) (l := List.range buf.width) ?_
      · rwa [map_range_getD (buf.rows.getD y []) [] hrw] at hmap2
      · intro x hx
        have hmem : buf.getpixel x y ∈ buf.getdata :=
          (wf_getpixel_mem hwf).mpr
            ⟨x, List.mem_range.mp hx, y, List.mem_range.mp hy, rfl⟩
        have hcat : buf.getpixel x y ∈ get_im_data buf := by
          rw [get_im_data, foldl_addColor_mem]
          exact Or.inr hmem
        show get_color_map (get_im_data buf) (get_im_data buf) (buf.getpixel x y)
          = some ((buf.rows.getD y []).getD x [])
        rw [gcm_self_lookup _ hcat]
        rfl
  rw [houter]
  rfl

theorem gcm_nodup_lookup {old_colors : List Color} (new_colors : List Color)
    (hnd : old_colors.Nodup) {i : Nat} (hi : i < old_colors.length) :
    get_color_map old_colors new_colors (old_colors.getD i [])
      = some (pairVal old_colors new_colors i) := by
  apply gcm_lookup_last old_colors new_colors hi
  intro j h1 h2 he
  rw [List.getD_eq_getElem _ _ h2, List.getD_eq_getElem _ _ hi] at he
  have := (List.Nodup.getElem_inj_iff hnd).mp he
  omega

theorem pairVal_take (old_colors new_colors : List Color) {i : Nat}
    (hi : i < old_colors.length) :
    pairVal old_colors (new_colors.take old_colors.length) i
      = pairVal old_colors new_colors i := by
  unfold pairVal
  have hlen : (new_colors.take old_colors.length).length
      = min old_colors.length new_colors.length := List.length_take _ _
  by_cases hc : (i : Int) > (new_colors.length : Int) - 1
  · rw [if_pos hc, if_pos]
    rw [hlen]
    push_cast
    omega
  · have hin : i < new_colors.length := by omega
    rw [if_neg hc, if_neg]
    · rw [List.getD_eq_getElem _ _ (by rw [hlen]; omega),
        List.getD_eq_getElem _ _ hin]
      simp [List.getElem_take]
    · rw [hlen]
      push_cast
      omega

theorem gcm_take (old_colors new_colors : List Color) :
    get_color_map old_colors new_colors
      = get_color_map old_colors (new_colors.take old_colors.length) := by
  funext k
  by_cases hk : k ∈ old_colors
  · obtain ⟨i, hi, he, hlast⟩ := lastOcc_of_mem ([] : Color) hk
    have h1 := gcm_lookup_last old_colors new_colors hi (by rw [he]; exact hlast)
    have h2 := gcm_lookup_last old_colors (new_colors.take old_colors.length) hi
      (by rw [he]; exact hlast)
    rw [he] at h1 h2
    rw [h1, h2, pairVal_take old_colors new_colors hi]
  · rw [(gcm_eq_none_iff _ _ _).mpr hk, (gcm_eq_none_iff _ _ _).mpr hk]

theorem paintStrips_nil (col_width : Nat) (draw : Nat → Nat → Color) (s : Nat) :
    paintStrips col_width [] draw s = draw := rfl

theorem paintStrips_cons (col_width : Nat) (c : Color) (rest : List Color)
    (draw : Nat → Nat → Color) (s : Nat) :
    paintStrips col_width (c :: rest) draw s
      = paintStrips col_width rest
          (drawRect draw (col_width * s) 0 (col_width * (s + 1)) palette_size.2 c)
          (s + 1) := rfl

/-- With zero strip width (more than 300 distinct colors), every rectangle
degenerates to the single pixel column x = 0, so the last color painted wins
there and the rest of the canvas keeps the background. -/
theorem paintStrips_zero_width :
    ∀ (colors : List Color) (hne : colors ≠ []) (draw : Nat → Nat → Color)
      (s x y : Nat),
      paintStrips 0 colors draw s x y
        = if x = 0 ∧ y ≤ palette_size.2 then colors.getLast hne else draw x y := by
  intro colors
  induction colors with
  | nil => intro hne; exact absurd rfl hne
  | cons c rest ih =>
    intro hne draw s x y
    rw [paintStrips_cons]
    cases rest with
    | nil =>
      rw [paintStrips_nil]
      simp [drawRect, Nat.le_zero]
    | cons c2 rest2 =>
      rw [ih (List.cons_ne_nil c2 rest2) _ (s + 1) x y]
      by_cases hcond : x = 0 ∧ y ≤ palette_size.2
      · rw [if_pos hcond, if_pos hcond]
        exact (List.getLast_cons (List.cons_ne_nil c2 rest2)).symm
      · rw [if_neg hcond, if_neg hcond]
        have hfalse : ¬ (0 * s ≤ x ∧ x ≤ 0 * (s + 1) ∧ 0 ≤ y ∧ y ≤ palette_size.2) := by
          rintro ⟨h1, h2, h3, h4⟩
          exact hcond ⟨Nat.le_zero.mp (by simpa using h2), h4⟩
        simp only [drawRect]
        rw [if_neg hfalse]

theorem foldl_addColor_of_nodup :
    ∀ (l acc : List Color), (acc ++ l).Nodup → l.foldl addColor acc = acc ++ l := by
  intro l
  induction l with
  | nil => intro acc _; simp
  | cons c l ih =>
    intro acc h
    have hperm : (acc ++ c :: l).Perm (c :: (acc ++ l)) := List.perm_middle
    have h2 : (c :: (acc ++ l)).Nodup := hperm.nodup h
    have hc : c ∉ acc := fun hmem =>
      (List.nodup_cons.mp h2).1 (List.mem_append.mpr (Or.inl hmem))
    rw [List.foldl_cons, show addColor acc c = acc ++ [c] from if_neg hc]
    have h3 : ((acc ++ [c]) ++ l).Nodup := by
      rw [List.append_assoc]
      simpa using h
    rw [ih (acc ++ [c]) h3, List.append_assoc]
    rfl

theorem map_range_ite (n : Nat) (a b : Color) :
    (List.range (n + 1)).map (fun x => if x = 0 then a else b)
      = a :: List.replicate n b := by
  rw [List.range_succ_eq_map, List.map_cons, List.map_map]
  congr 1
  have hcongr : ∀ x ∈ List.range n,
      ((fun x => if x = 0 then a else b) ∘ Nat.succ) x = b := by
    intro x _
    simp
  rw [List.map_congr_left hcongr, List.map_const', List.length_range]

/-- The concrete failing input for the totality claim: a 301 × 1 image whose
pixels are 301 pairwise distinct colors. -/
def c9Color (i : Nat) : Color :=
  [((i % 256 : Nat) : Int), ((i / 256 : Nat) : Int), 0, 255]

/-- The single pixel row of the failing image. -/
def c9Row : List Color := (List.range 301).map c9Color

/-- The 301-distinct-color source image. -/
def c9Orig : PixelBuffer := { width := 301, height := 1, rows := [c9Row] }

/-- An arbitrary well-formed 1 × 1 destination palette image. -/
def c9Pal : PixelBuffer := { width := 1, height := 1, rows := [[[255, 255, 255, 255]]] }

theorem c9Color_injective : Function.Injective c9Color := by
  intro i j h
  simp only [c9Color, List.cons.injEq] at h
  have h1 : i % 256 = j % 256 := by exact_mod_cast h.1
  have h2 : i / 256 = j / 256 := by exact_mod_cast h.2.1
  omega

theorem c9Row_nodup : c9Row.Nodup :=
  (List.nodup_range 301).map c9Color_injective

theorem get_im_data_c9Orig : get_im_data c9Orig = c9Row := by
  have hdata : c9Orig.getdata = c9Row := by
    simp [PixelBuffer.getdata, c9Orig]
  rw [get_im_data, hdata]
  have hfold := foldl_addColor_of_nodup c9Row [] (by simp [c9Row_nodup])
  simp at hfold
  exact hfold

/-- The strip image make_palette renders for c9Orig: 301 strips of width
floor(300/301) = 0 on the 300 × 200 canvas. -/
def c9Strip : PixelBuffer :=
  { width := palette_size.1, height := palette_size.2,
    rows := renderRows (paintStrips 0 c9Row (fun _ _ => imageNewBG) 0) }

theorem make_palette_c9 : make_palette c9Orig = some c9Strip := by
  rw [make_palette, get_im_data_c9Orig]
  have hlen : c9Row.length = 301 := by simp [c9Row]
  rw [hlen]
  have hdiv : palette_size.1 / 301 = 0 := by
    apply Nat.div_eq_of_lt
    simp [palette_size]
  simp only [hdiv]
  rfl

theorem c9Row_ne_nil : c9Row ≠ [] := by
  simp [c9Row]

theorem c9Row_getLast : c9Row.getLast c9Row_ne_nil = c9Color 300 := by
  rw [List.getLast_eq_getElem]
  simp [c9Row]

theorem foldl_addColor_two {a b : Color} (hab : a ≠ b) (rest : List Color)
    (hrest : ∀ c ∈ rest, c = a ∨ c = b) :
    (a :: b :: rest).foldl addColor [] = [a, b] := by
  rw [List.foldl_cons, show addColor [] a = [a] by simp [addColor]]
  rw [List.foldl_cons, show addColor [a] b = [a, b] by
    simp [addColor]
    intro h
    exact absurd h.symm hab]
  apply foldl_addColor_closed
  intro c hc
  rcases hrest c hc with h | h <;> simp [h]

theorem c9Strip_rows :
    c9Strip.rows
      = List.replicate palette_size.2
          (c9Color 300 :: List.replicate 299 imageNewBG) := by
  rw [c9Strip]
  show renderRows (paintStrips 0 c9Row (fun _ _ => imageNewBG) 0) = _
  rw [renderRows]
  have hrow : ∀ y ∈ List.range palette_size.2,
      (List.range palette_size.1).map
          (fun x => paintStrips 0 c9Row (fun _ _ => imageNewBG) 0 x y)
        = c9Color 300 :: List.replicate 299 imageNewBG := by
    intro y hy
    have hy' : y ≤ palette_size.2 := Nat.le_of_lt (List.mem_range.mp hy)
    have hpaint : ∀ x, paintStrips 0 c9Row (fun _ _ => imageNewBG) 0 x y
        = if x = 0 then c9Color 300 else imageNewBG := by
      intro x
      rw [paintStrips_zero_width c9Row c9Row_ne_nil _ 0 x y, c9Row_getLast]
      by_cases hx : x = 0
      · rw [if_pos ⟨hx, hy'⟩, if_pos hx]
      · rw [if_neg fun h => hx h.1, if_neg hx]
    rw [List.map_congr_left fun x _ => hpaint x]
    exact map_range_ite 299 (c9Color 300) imageNewBG
  rw [List.map_congr_left hrow, List.map_const', List.length_range]

theorem c9Strip_catalog : get_im_data c9Strip = [c9Color 300, imageNewBG] := by
  rw [get_im_data, PixelBuffer.getdata, c9Strip_rows]
  have hflat :
      (List.replicate palette_size.2
          (c9Color 300 :: List.replicate 299 imageNewBG)).flatten
        = c9Color 300 :: imageNewBG ::
            (List.replicate 298 imageNewBG ++
              (List.replicate 199
                (c9Color 300 :: List.replicate 299 imageNewBG)).flatten) := by
    have h2 : palette_size.2 = 199 + 1 := by simp [palette_size]
    rw [h2, List.replicate_succ, List.flatten_cons]
    rw [show List.replicate 299 imageNewBG
        = imageNewBG :: List.replicate 298 imageNewBG from rfl]
    rw [List.cons_append, List.cons_append]
  rw [hflat]
  apply foldl_addColor_two
  · simp [c9Color, imageNewBG]
  · intro c hc
    rcases List.mem_append.mp hc with h | h
    · exact Or.inr (List.eq_of_mem_replicate h)
    · obtain ⟨row, hrow, hcrow⟩ := List.mem_flatten.mp h
      have hr := List.eq_of_mem_replicate hrow
      rw [hr] at hcrow
      rcases List.mem_cons.mp hcrow with h | h
      · exact Or.inl h
      · exact Or.inr (List.eq_of_mem_replicate h)

/-- C9: the claim says the per-pixel lookup of swap_colors never fails for
any input image.  The code refutes it: on this 301-distinct-color image the
palette strip is rendered with col_width = floor(300/301) = 0, every strip
collapses onto pixel column 0, the extracted old_colors catalog is just
[last color, background], and the very first pixel's lookup raises KeyError
(the transformation returns no buffer). -/
theorem claim_C9 : swap_colors c9Orig c9Pal = none := by
  unfold swap_colors
  rw [make_palette_c9]
  show apply_mapping
      (get_color_map (get_im_data c9Strip) (get_im_data c9Pal)) c9Orig = none
  rw [c9Strip_catalog, apply_mapping, Option.map_eq_none']
  have hmem0 : (0 : Nat) ∈ List.range c9Orig.height := by decide
  have hmem0w : (0 : Nat) ∈ List.range c9Orig.width := by decide
  apply mapOpt_eq_none_of_mem hmem0
  apply mapOpt_eq_none_of_mem hmem0w
  have hpix : c9Orig.getpixel 0 0 = c9Color 0 := by decide
  rw [hpix, gcm_eq_none_iff]
  decide

/-- C2: the key set of the mapping returned by get_color_map is exactly the
set of source colors: a color has an entry (its lookup succeeds) precisely
when it occurs in source_colors. -/
theorem claim_C2 (source_colors dest_colors : List Color) (k : Color) :
    ((get_color_map source_colors dest_colors) k).isSome ↔ k ∈ source_colors :=
  gcm_isSome_iff source_colors dest_colors k

/-- C1 counterexample: with a duplicated source color, the mapping does not
send the 0-th source color to the 0-th destination color even though
0 < min(len(old), len(new)): the later duplicate's pairing overwrites it. -/
theorem claim_C1_cex :
    get_color_map [[1, 1, 1, 255], [1, 1, 1, 255]] [[2, 0, 0, 255], [3, 0, 0, 255]]
        (([[1, 1, 1, 255], [1, 1, 1, 255]] : List Color).getD 0 [])
      ≠ some (([[2, 0, 0, 255], [3, 0, 0, 255]] : List Color).getD 0 []) := by
  decide

/-- The identity fallback holds for every input pair, duplicates included:
at an index i ≥ len(new_colors), the color's last occurrence j satisfies
j ≥ i ≥ len(new_colors) as well, so the winning pairing is also an identity
pairing. -/
theorem gcm_identity_fallback (old_colors new_colors : List Color) {i : Nat}
    (hin : new_colors.length ≤ i) (hio : i < old_colors.length) :
    get_color_map old_colors new_colors (old_colors.getD i [])
      = some (old_colors.getD i []) := by
  obtain ⟨j, hj, hje, hjlast⟩ :=
    lastOcc_of_mem ([] : Color) (getD_mem_of_lt ([] : Color) hio)
  have hij : i ≤ j := by
    by_contra hlt
    push_neg at hlt
    exact hjlast i hlt hio rfl
  have hlook := gcm_lookup_last old_colors new_colors hj
    (fun t h1 h2 => by rw [hje]; exact hjlast t h1 h2)
  rw [hje] at hlook
  have hcond : (j : Int) > (new_colors.length : Int) - 1 := by omega
  rw [hlook, pairVal, if_pos hcond, hje]

/-- C1 as amended: for all input lists, the mapping sends every source color
at index i ≥ len(new_colors) to itself, and destination colors at indices
≥ len(old_colors) are never read (truncating them leaves the mapping
unchanged); the per-index pairing clause — the i-th source color maps to the
i-th destination color for i < min(len(old), len(new)) — holds provided
old_colors has no duplicate color, because with a duplicated source color
the later positional pairing overwrites the earlier one: an occurrence's
color receives the pairing of that color's last occurrence. -/
theorem claim_C1 (old_colors new_colors : List Color) :
    (old_colors.Nodup →
      ∀ i, i < old_colors.length → i < new_colors.length →
        get_color_map old_colors new_colors (old_colors.getD i [])
          = some (new_colors.getD i [])) ∧
    (∀ i, new_colors.length ≤ i → i < old_colors.length →
        get_color_map old_colors new_colors (old_colors.getD i [])
          = some (old_colors.getD i [])) ∧
    (∀ i j, i < j → j < old_colors.length →
        old_colors.getD i [] = old_colors.getD j [] →
        (∀ t, j < t → t < old_colors.length →
          old_colors.getD t [] ≠ old_colors.getD j []) →
        get_color_map old_colors new_colors (old_colors.getD i [])
          = some (pairVal old_colors new_colors j)) ∧
    get_color_map old_colors new_colors
      = get_color_map old_colors (new_colors.take old_colors.length) := by
  refine ⟨?_, ?_, ?_, gcm_take old_colors new_colors⟩
  · intro hnd i hio hin
    have hcond : ¬ ((i : Int) > (new_colors.length : Int) - 1) := by omega
    rw [gcm_nodup_lookup new_colors hnd hio]
    rw [pairVal, if_neg hcond]
  · intro i hin hio
    exact gcm_identity_fallback old_colors new_colors hin hio
  · intro i j _hij hj hdup hjlast
    rw [hdup]
    exact gcm_lookup_last old_colors new_colors hj hjlast

/-- C1 witness: the unconditional identity-fallback clause of the amended
theorem, applied at a concrete source list with a duplicated color and a
single-entry destination list. -/
theorem claim_C1_witness :
    get_color_map [[1], [2], [1]] [[5]]
        (([[1], [2], [1]] : List Color).getD 1 [])
      = some (([[1], [2], [1]] : List Color).getD 1 []) :=
  (claim_C1 [[1], [2], [1]] [[5]]).2.1 1 (by decide) (by decide)

/-- C3: on any well-formed buffer, get_im_data returns a duplicate-free
sequence of length at most the pixel count, containing exactly the colors
occurring in the buffer, listed in strictly increasing order of first
occurrence within the row-major pixel sequence; an empty buffer yields the
empty sequence. -/
theorem claim_C3 (buf : PixelBuffer) (hwf : buf.wf) :
    (get_im_data buf).Nodup ∧
    (get_im_data buf).length ≤ buf.width * buf.height ∧
    (∀ c, c ∈ get_im_data buf ↔ c ∈ buf.getdata) ∧
    (get_im_data buf).Pairwise
      (fun a b => firstIdx a buf.getdata < firstIdx b buf.getdata) ∧
    (buf.getdata = [] → get_im_data buf = []) := by
  refine ⟨?_, ?_, ?_, ?_, ?_⟩
  · exact foldl_addColor_nodup buf.getdata [] List.nodup_nil
  · have h1 := foldl_addColor_length buf.getdata []
    simp only [List.length_nil, Nat.zero_add] at h1
    have h2 := wf_getdata_length hwf
    rw [get_im_data]
    omega
  · intro c
    rw [get_im_data, foldl_addColor_mem]
    simp
  · exact foldl_addColor_pairwise buf.getdata buf.getdata [] [] rfl
      (fun a => by simp) List.Pairwise.nil
  · intro h
    rw [get_im_data, h]
    rfl

/-- A concrete 2 × 2 buffer with a repeated color, for the C3 witness. -/
def wbufC3 : PixelBuffer :=
  PixelBuffer.mk 2 2
    [[[255, 0, 0, 255], [0, 255, 0, 255]], [[255, 0, 0, 255], [0, 0, 255, 255]]]

/-- C3 witness: the theorem applied to a concrete 2 × 2 buffer with a
repeated color. -/
theorem claim_C3_witness :
    (get_im_data wbufC3).Nodup ∧
    (get_im_data wbufC3).length ≤ wbufC3.width * wbufC3.height ∧
    (∀ c, c ∈ get_im_data wbufC3 ↔ c ∈ wbufC3.getdata) ∧
    (get_im_data wbufC3).Pairwise
      (fun a b => firstIdx a wbufC3.getdata < firstIdx b wbufC3.getdata) ∧
    (wbufC3.getdata = [] → get_im_data wbufC3 = []) :=
  claim_C3 wbufC3 ⟨rfl, by decide⟩

/-- C4: the transformation loop raises (returns no buffer at all) exactly
when some pixel color of the source is absent from the mapping; when every
occurring color is mapped, a full buffer of the source's dimensions is
produced. -/
theorem claim_C4 (color_map : ColorMap) (buf : PixelBuffer) (hwf : buf.wf) :
    (apply_mapping color_map buf = none ↔
      ∃ c ∈ buf.getdata, color_map c = none) ∧
    ((∀ c ∈ buf.getdata, (color_map c).isSome) →
      ∃ out, apply_mapping color_map buf = some out ∧
        out.width = buf.width ∧ out.height = buf.height) := by
  refine ⟨apply_mapping_eq_none_iff color_map hwf, ?_⟩
  intro h
  obtain ⟨out, ho⟩ := apply_mapping_total_some color_map hwf h
  obtain ⟨h1, h2, _, _⟩ := apply_mapping_some_spec ho
  exact ⟨out, ho, h1, h2⟩

/-- C4 witness: the theorem applied to a concrete mapping missing one of the
buffer's two colors. -/
theorem claim_C4_witness :
    (apply_mapping (get_color_map [[1]] [[5]])
        { width := 2, height := 1, rows := [[[1], [2]]] } = none ↔
      ∃ c ∈ (PixelBuffer.getdata
          { width := 2, height := 1, rows := [[[1], [2]]] }),
        get_color_map [[1]] [[5]] c = none) ∧
    ((∀ c ∈ (PixelBuffer.getdata
          { width := 2, height := 1, rows := [[[1], [2]]] }),
        (get_color_map [[1]] [[5]] c).isSome) →
      ∃ out, apply_mapping (get_color_map [[1]] [[5]])
          { width := 2, height := 1, rows := [[[1], [2]]] } = some out ∧
        out.width = 2 ∧ out.height = 1) :=
  claim_C4 (get_color_map [[1]] [[5]])
    { width := 2, height := 1, rows := [[[1], [2]]] } ⟨rfl, by decide⟩

/-- C5: the claim says a 0 × 0 input image goes through the pipeline without
error, yielding empty catalog, empty mapping and a 0 × 0 output.  The code
refutes it: make_palette divides 300 by the number of extracted colors, so
an empty image raises ZeroDivisionError and swap_colors produces nothing. -/
theorem claim_C5 :
    make_palette { width := 0, height := 0, rows := [] } = none ∧
    swap_colors { width := 0, height := 0, rows := [] }
      { width := 1, height := 1, rows := [[[9, 9, 9, 255]]] } = none := by
  constructor <;> decide

/-- C6 counterexample: a line with a value outside [0,255] and a line with
only three fields are both accepted by the loader and passed on as colors
untouched, instead of raising before the palette builder runs. -/
theorem claim_C6_cex :
    load_palette_file ["300,0,0,0", "1,2,3"]
      = some [[300, 0, 0, 0], [1, 2, 3]] := by
  decide

/-- C6 as amended: loading a destination-palette text file raises an error
for exactly the lines containing a token that does not parse as an integer
(Python's int() raising ValueError); no arity check (exactly four fields)
and no range check (values within [0,255]) is performed, so such colors
reach the palette builder unchanged, as the counterexample shows. -/
theorem claim_C6 (lines : List String) :
    load_palette_file lines = none ↔
      ∃ entry ∈ lines, ∃ tok ∈ splitCommas entry.data, pyInt tok = none := by
  rw [load_palette_file, mapOpt_eq_none_iff]
  constructor
  · rintro ⟨entry, he, hn⟩
    rw [mapOpt_eq_none_iff] at hn
    obtain ⟨tok, ht, hp⟩ := hn
    exact ⟨entry, he, tok, ht, hp⟩
  · rintro ⟨entry, he, tok, ht, hp⟩
    exact ⟨entry, he, mapOpt_eq_none_of_mem ht hp⟩

/-- C6 witness: a non-numeric token makes the loader raise. -/
theorem claim_C6_witness : load_palette_file ["1,x"] = none :=
  (claim_C6 ["1,x"]).mpr
    ⟨"1,x", List.mem_singleton.mpr rfl, ['x'], by decide, by decide⟩

/-- C7: whenever the transformation loop succeeds, the output buffer has
exactly the source's width and height (and is well-formed), and each output
pixel is the mapping's image of the co-located source pixel. -/
theorem claim_C7 (color_map : ColorMap) (buf out : PixelBuffer)
    (h : apply_mapping color_map buf = some out) :
    out.width = buf.width ∧ out.height = buf.height ∧ out.wf ∧
      ∀ x y, x < buf.width → y < buf.height →
        color_map (buf.getpixel x y) = some (out.getpixel x y) :=
  apply_mapping_some_spec h

/-- C7 witness: the theorem applied to a concrete successful transformation. -/
theorem claim_C7_witness :
    (PixelBuffer.mk 2 1 [[[5], [6]]]).width
        = (PixelBuffer.mk 2 1 [[[1], [2]]]).width ∧
    (PixelBuffer.mk 2 1 [[[5], [6]]]).height
        = (PixelBuffer.mk 2 1 [[[1], [2]]]).height ∧
    (PixelBuffer.mk 2 1 [[[5], [6]]]).wf ∧
      ∀ x y, x < (PixelBuffer.mk 2 1 [[[1], [2]]]).width →
        y < (PixelBuffer.mk 2 1 [[[1], [2]]]).height →
        get_color_map [[1], [2]] [[5], [6]]
            ((PixelBuffer.mk 2 1 [[[1], [2]]]).getpixel x y)
          = some ((PixelBuffer.mk 2 1 [[[5], [6]]]).getpixel x y) :=
  claim_C7 (get_color_map [[1], [2]] [[5], [6]])
    (PixelBuffer.mk 2 1 [[[1], [2]]]) (PixelBuffer.mk 2 1 [[[5], [6]]])
    (by decide)

/-- C8: building the mapping from a buffer's own catalog against itself and
applying it reproduces the buffer pixel for pixel. -/
theorem claim_C8 (buf : PixelBuffer) (hwf : buf.wf) :
    apply_mapping (get_color_map (get_im_data buf) (get_im_data buf)) buf
      = some buf :=
  apply_mapping_self hwf

/-- A concrete 2 × 2 buffer with each color occurring twice, for the C8
witness. -/
def wbufC8 : PixelBuffer :=
  PixelBuffer.mk 2 2
    [[[3, 3, 3, 255], [4, 4, 4, 255]], [[4, 4, 4, 255], [3, 3, 3, 255]]]

/-- C8 witness: the round trip on a concrete buffer with repeated colors. -/
theorem claim_C8_witness :
    apply_mapping (get_color_map (get_im_data wbufC8) (get_im_data wbufC8)) wbufC8
      = some wbufC8 :=
  claim_C8 wbufC8 ⟨rfl, by decide⟩

/-- C10 counterexample: with the same color at indices 0 < 1 (and also 2),
the mapping does not give that color the value of the pairing at index 1 —
the claim's "larger index j" is not enough when a still later duplicate
exists. -/
theorem claim_C10_cex :
    get_color_map [[7], [7], [7]] [[1], [2], [3]]
        (([[7], [7], [7]] : List Color).getD 1 [])
      ≠ some (([[1], [2], [3]] : List Color).getD 1 []) := by
  decide

/-- C10 as amended: when the same color occurs at indices i < j and j is the
last index at which it occurs, the dict assignment of iteration j overwrites
every earlier pairing, so the color's value is the one determined by j
(new_colors[j] inside the common range, itself past it). -/
theorem claim_C10 (old_colors new_colors : List Color) (i j : Nat)
    (_hij : i < j) (hj : j < old_colors.length)
    (_hdup : old_colors.getD i [] = old_colors.getD j [])
    (hlast : ∀ t, j < t → t < old_colors.length →
      old_colors.getD t [] ≠ old_colors.getD j []) :
    get_color_map old_colors new_colors (old_colors.getD j [])
      = some (pairVal old_colors new_colors j) :=
  gcm_lookup_last old_colors new_colors hj hlast

/-- C10 witness: the amended theorem at a concrete duplicated pair: the later
pairing wins. -/
theorem claim_C10_witness :
    get_color_map [[5], [5]] [[1], [2]]
        (([[5], [5]] : List Color).getD 1 [])
      = some (pairVal [[5], [5]] [[1], [2]] 1) :=
  claim_C10 [[5], [5]] [[1], [2]] 0 1 (by decide) (by decide) (by decide)
    (fun t h1 h2 => by simp at h2; omega)
